import Mathlib

/-!
Shallow embedding of the NILFS2 inode-file (ifile) component:
`fs/nilfs2/ifile.c` (`nilfs_ifile_create_inode`, `nilfs_ifile_delete_inode`,
`nilfs_ifile_get_inode_block`, `nilfs_ifile_compare_block`,
`nilfs_ifile_compare`) together with the data declared in `fs/nilfs2/ifile.h`
(`struct nilfs_ifile_change`).

The external collaborators (the persistent-object allocator `alloc.c`, the
block-map differ `nilfs_bmap_compare`, and the buffer cache) are not part of
the given sources; they are modelled from the specification's interface
description (spec section 6), and each such definition is marked
"Modelled from the spec:".
-/

namespace Nilfs

/-- Error codes used by ifile.c, a small subset of the kernel errno values. -/
inductive Err
  | Eio
  | ENOMEM
  | ENOENT
  | EINVAL
  | ENOSPC
deriving DecidableEq

/-- Numeric value of each error as returned by the C code (negative errno). -/
def errno : Err → Int
  | .Eio => -5
  | .ENOMEM => -12
  | .ENOENT => -2
  | .EINVAL => -22
  | .ENOSPC => -28

/-- On-disk inode fields that ifile.c reads or writes: `i_flags`,
`i_links_count`, `i_ctime`, `i_ctime_nsec` (all other fields are never
touched by this component). -/
structure Entry where
  flags : Nat
  links : Nat
  ctime : Nat
  ctimeNsec : Nat
deriving DecidableEq

/-- Liveness as the diff engine decides it: `le16_to_cpu(i_links_count)`
nonzero (ifile.c lines 209, 227, 251, 257). -/
def isLive (e : Entry) : Bool := e.links != 0

/-- One record produced by the external block-map differ: a logical block
offset whose mapping differs, with flags telling whether each side's pointer
is valid (`ptr != NILFS_BMAP_INVALID_PTR`). -/
structure DiffRec where
  key : Nat
  ptr1 : Bool
  ptr2 : Bool
deriving DecidableEq

/-- A buffer-head identity: the side it was fetched from (`false` = ifile1,
`true` = ifile2) and the first inode number of the block. -/
abbrev BH := Bool × Nat

/-- struct nilfs_ifile_change from ifile.h: inode number plus an optional
retained buffer-head reference for each side. -/
structure Change where
  ino : Nat
  bh1 : Option BH
  bh2 : Option BH
deriving DecidableEq

/-- Environment of one `nilfs_ifile_compare` call: the block-group geometry,
the two tables' on-disk inode contents (indexed by inode number), fetch
oracles saying whether `nilfs_palloc_get_entry_block` succeeds on the block
holding a given first inode number, and the full ordered output of the
block-map differ starting from offset 0. -/
structure Env where
  epb : Nat
  ebpg : Nat
  tbl1 : Nat → Entry
  tbl2 : Nat → Entry
  fetchOk1 : Nat → Bool
  fetchOk2 : Nat → Bool
  alldiffs : List DiffRec

/-- Modelled from the spec: `block_type_of` / `nilfs_palloc_block_type` of the
absent allocator (alloc.c). Block groups are laid out as one allocator
(bitmap) block followed by `ebpg` entry blocks; for an entry block the result
carries the first inode number stored in it, for an allocator block it is
`none`.  This realises spec section 6's
`block_type_of(logical_offset) -> entry-block or other`. -/
def blockNr (ebpg epb key : Nat) : Option Nat :=
  let g := key / (ebpg + 1)
  let r := key % (ebpg + 1)
  if r = 0 then none else some ((g * ebpg + (r - 1)) * epb)

/-- Modelled from the spec: `nilfs_palloc_entry_blkoff` of the absent
allocator — the logical block offset of the block containing entry `ino`,
inverse of `blockNr` on entry blocks. -/
def entryBlkoff (ebpg epb ino : Nat) : Nat :=
  let b := ino / epb
  (b / ebpg) * (ebpg + 1) + (b % ebpg) + 1

/-- The inode numbers scanned by a `for ( ; ino <= end; ino++)` loop. -/
def inoRange (lo hi : Nat) : List Nat := List.range' lo (hi + 1 - lo)

/-- One iteration body of a compare-block emission loop: `f i` is the record
the C loop would store for inode `i` (`none` when the loop body skips `i`).
The capacity check is the code's `if (n == maxchanges) break;`, performed
only after `n` was incremented, exactly as in ifile.c lines 215, 233, 264. -/
def emitLoop (f : Nat → Option Change) : List Nat → Nat → Nat → List Change
  | [], _, _ => []
  | i :: rest, n, maxch =>
    match f i with
    | none => emitLoop f rest n maxch
    | some c => if n + 1 = maxch then [c] else c :: emitLoop f rest (n + 1) maxch

/-- The same emission loop without any capacity bound. -/
def emitAll (f : Nat → Option Change) (inos : List Nat) : List Change :=
  inos.filterMap f

/-- Loop body for the one-sided branches of `nilfs_ifile_compare_block`
(only `ibh2` present when `side = true`, only `ibh1` present when
`side = false`): emit a record iff the inode is live on that side, with the
present side's buffer head retained. -/
def onlyF (env : Env) (side : Bool) (nr i : Nat) : Option Change :=
  let e := if side then env.tbl2 i else env.tbl1 i
  if isLive e then
    some { ino := i
           bh1 := if side then none else some (false, nr)
           bh2 := if side then some (true, nr) else none }
  else none

/-- Loop body for the both-blocks-present branch of
`nilfs_ifile_compare_block`: emit a record iff `i_ctime_nsec` or `i_ctime`
differs, retaining each side's buffer head iff that side's link count is
nonzero. -/
def bothF (env : Env) (nr i : Nat) : Option Change :=
  let e1 := env.tbl1 i
  let e2 := env.tbl2 i
  if e1.ctimeNsec != e2.ctimeNsec || e1.ctime != e2.ctime then
    some { ino := i
           bh1 := if isLive e1 then some (false, nr) else none
           bh2 := if isLive e2 then some (true, nr) else none }
  else none

/-- nilfs_ifile_compare_block (ifile.c lines 158-278): classify the differing
block, clip the scan window to `[max nr start, nr + epb - 1]`, fetch the
sides whose bmap pointer is valid (an I/O failure releases what was fetched
and propagates), then run the appropriate emission loop.  The returned list
is what the C code appended to the caller's `changes` buffer; its length is
the returned `n`. -/
def compareBlock (env : Env) (start : Nat) (d : DiffRec) (maxchanges : Nat) :
    Except Err (List Change) :=
  match blockNr env.ebpg env.epb d.key with
  | none => .ok []
  | some nr =>
    if nr + env.epb - 1 < max nr start then .ok []
    else if d.ptr1 && !env.fetchOk1 nr then .error .Eio
    else if d.ptr2 && !env.fetchOk2 nr then .error .Eio
    else if !d.ptr1 && !d.ptr2 then .ok []
    else if !d.ptr1 then
      .ok (emitLoop (onlyF env true nr) (inoRange (max nr start) (nr + env.epb - 1)) 0 maxchanges)
    else if !d.ptr2 then
      .ok (emitLoop (onlyF env false nr) (inoRange (max nr start) (nr + env.epb - 1)) 0 maxchanges)
    else
      .ok (emitLoop (bothF env nr) (inoRange (max nr start) (nr + env.epb - 1)) 0 maxchanges)

deriving instance DecidableEq for Except

/-- Observable outcome of one `nilfs_ifile_compare` call: the C return value
(count on success, negative errno mapped to `Err`), the records written to
the caller's buffer, and the buffer-head references still held when the call
returns (on success these belong to the caller via the records). -/
structure CompareResult where
  ret : Except Err Nat
  buf : List Change
  retained : List BH
deriving DecidableEq

/-- The buffer-head references embedded in a list of change records. -/
def recHandles (cs : List Change) : List BH :=
  cs.flatMap fun c => c.bh1.toList ++ c.bh2.toList

/-- Main loop of nilfs_ifile_compare (ifile.c lines 306-339), processing the
differ's records in order.  On a compare-block failure the C code executes
`nc = n; goto failed;` and then the release loop
`for (i = 0; i < nc; i++) { brelse(changes[i].bh1); brelse(changes[i].bh2); }`
— at that point `nc` holds the negative error, so the loop performs
`(errno e).toNat = 0` iterations and the handles of the records already
produced stay retained. -/
def compareGo (env : Env) (start cap : Nat) :
    List DiffRec → Nat → List Change → CompareResult
  | [], nc, acc => ⟨.ok nc, acc, recHandles acc⟩
  | d :: rest, nc, acc =>
    match compareBlock env start d (cap - nc) with
    | .error e => ⟨.error e, acc, recHandles (acc.drop (errno e).toNat)⟩
    | .ok cs =>
      let nc' := nc + cs.length
      if nc' = cap then ⟨.ok nc', acc ++ cs, recHandles (acc ++ cs)⟩
      else compareGo env start cap rest nc' (acc ++ cs)

/-- nilfs_ifile_compare (ifile.c lines 288-340): start the scan at the block
offset of `start` and feed every differ record from that offset on, in order,
to `nilfs_ifile_compare_block`. -/
def compareRun (env : Env) (start cap : Nat) : CompareResult :=
  compareGo env start cap
    (env.alldiffs.filter fun d => entryBlkoff env.ebpg env.epb start ≤ d.key) 0 []

/-- Per-block records of a capacity-unbounded scan. -/
def fullBlock (env : Env) (start : Nat) (d : DiffRec) : List Change :=
  match blockNr env.ebpg env.epb d.key with
  | none => []
  | some nr =>
    if nr + env.epb - 1 < max nr start then []
    else if !d.ptr1 && !d.ptr2 then []
    else if !d.ptr1 then emitAll (onlyF env true nr) (inoRange (max nr start) (nr + env.epb - 1))
    else if !d.ptr2 then emitAll (onlyF env false nr) (inoRange (max nr start) (nr + env.epb - 1))
    else emitAll (bothF env nr) (inoRange (max nr start) (nr + env.epb - 1))

/-- All change records of a capacity-unbounded scan from `start`. -/
def fullChanges (env : Env) (start : Nat) : List Change :=
  (env.alldiffs.filter fun d => entryBlkoff env.ebpg env.epb start ≤ d.key).flatMap
    (fullBlock env start)

/-- Events of one `nilfs_ifile_delete_inode` call, in program order. -/
inductive DelEv
  | zeroFlags (ino : Nat)
  | markDirty (blk : Nat)
  | brelseEv (blk : Nat)
  | commitFree (ino : Nat)
deriving DecidableEq

/-- State of one ifile for the lifecycle operations: capacity of the table,
the allocator's allocated-bit per inode number, the on-disk inode contents,
dirtiness of each entry block (indexed by block number `ino / epb`) and of
the ifile's own metadata, and a fetch oracle for
`nilfs_palloc_get_entry_block` per block number. -/
structure IfileState where
  nmax : Nat
  epb : Nat
  allocated : Nat → Bool
  entries : Nat → Entry
  blockDirty : Nat → Bool
  mdtDirty : Bool
  fetchOk : Nat → Bool

/-- Modelled from the spec: `nilfs_palloc_prepare_alloc_entry` of the absent
allocator reserves the lowest-numbered free slot, scanning from the beginning
of the search space (spec section 4.1), or fails when the table is full. -/
def firstFree (st : IfileState) : Option Nat :=
  (List.range st.nmax).find? fun i => !st.allocated i

/-- nilfs_ifile_create_inode (ifile.c lines 61-88): prepare an allocation
(Modelled from the spec: the absent allocator's prepare makes the reservation
not yet observable and abort undoes it, so a prepare-abort pair leaves the
state unchanged and only commit sets the allocated bit); fetch the slot's
block with create=1; on fetch failure abort and propagate; on success commit,
mark the entry's block and the ifile metadata dirty, and return the inode
number together with the retained buffer head (identified by its block
number). -/
def createInode (st : IfileState) : IfileState × Except Err (Nat × Nat) :=
  match firstFree st with
  | none => (st, .error .ENOSPC)
  | some s =>
    if !st.fetchOk (s / st.epb) then
      (st, .error .Eio)
    else
      ({ st with
          allocated := fun i => if i = s then true else st.allocated i
          blockDirty := fun b => if b = s / st.epb then true else st.blockDirty b
          mdtDirty := true },
       .ok (s, s / st.epb))

/-- nilfs_ifile_delete_inode (ifile.c lines 104-137): prepare a free
(Modelled from the spec: the absent allocator's prepare validates that the
entry is currently allocated and fails with `NotAllocated` = -ENOENT
otherwise, without mutating anything); fetch the entry's block; on fetch
failure abort the prepare and propagate; otherwise set `raw_inode->i_flags`
to 0 in place, mark the block dirty, release the local block reference, and
commit the free (clearing the allocated bit).  The event list records the
successful path's actions in program order. -/
def deleteInode (st : IfileState) (ino : Nat) :
    IfileState × List DelEv × Except Err Unit :=
  if !st.allocated ino then (st, [], .error .ENOENT)
  else if !st.fetchOk (ino / st.epb) then (st, [], .error .Eio)
  else
    ({ st with
        entries := fun i =>
          if i = ino then { st.entries ino with flags := 0 } else st.entries i
        blockDirty := fun b =>
          if b = ino / st.epb then true else st.blockDirty b
        allocated := fun i => if i = ino then false else st.allocated i },
     [DelEv.zeroFlags ino, DelEv.markDirty (ino / st.epb),
      DelEv.brelseEv (ino / st.epb), DelEv.commitFree ino],
     .ok ())

/-- nilfs_ifile_get_inode_block (ifile.c lines 139-156): reject an inode
number outside the addressable range with -EINVAL before touching storage
(Modelled from the spec: `NILFS_VALID_INODE` of the absent header is the
table's addressable-range check), otherwise fetch the containing block with
create=0.  The second component logs every `nilfs_palloc_get_entry_block`
call as (block number, create flag). -/
def getInodeBlock (st : IfileState) (ino : Nat) :
    Except Err Nat × List (Nat × Bool) :=
  if st.nmax ≤ ino then (.error .EINVAL, [])
  else if st.fetchOk (ino / st.epb) then
    (.ok (ino / st.epb), [(ino / st.epb, false)])
  else (.error .Eio, [(ino / st.epb, false)])

/-- A dead on-disk inode: every field zero. -/
def dead : Entry := ⟨0, 0, 0, 0⟩

/-- A live on-disk inode (link count 1). -/
def liveE : Entry := ⟨0, 1, 7, 0⟩

/-- Concrete scenario: two differing blocks; the first (only in table 2)
yields one creation record, fetching the first table's copy of the second
fails with an I/O error. -/
def E1 : Env :=
  { epb := 2, ebpg := 2
    tbl1 := fun _ => dead
    tbl2 := fun i => if i = 0 then liveE else dead
    fetchOk1 := fun _ => false
    fetchOk2 := fun _ => true
    alldiffs := [⟨1, false, true⟩, ⟨2, true, true⟩] }

/-- Concrete scenario: one differing block, present only in table 2, holding
one live inode; all fetches succeed. -/
def E3 : Env :=
  { epb := 2, ebpg := 2
    tbl1 := fun _ => dead
    tbl2 := fun i => if i = 0 then liveE else dead
    fetchOk1 := fun _ => true
    fetchOk2 := fun _ => true
    alldiffs := [⟨1, false, true⟩] }

/-- Concrete scenario: one block differing on both sides; inode 0 is dead in
both tables but its ctime differs (for example it was created and deleted
again between the two checkpoints). -/
def E4 : Env :=
  { epb := 2, ebpg := 2
    tbl1 := fun i => if i = 0 then ⟨0, 0, 1, 0⟩ else dead
    tbl2 := fun i => if i = 0 then ⟨0, 0, 2, 0⟩ else dead
    fetchOk1 := fun _ => true
    fetchOk2 := fun _ => true
    alldiffs := [⟨1, true, true⟩] }

/-- Concrete scenario: four differing inodes spread over two differing
blocks, all fetches succeed. -/
def E5 : Env :=
  { epb := 2, ebpg := 2
    tbl1 := fun i => if i < 2 then dead else ⟨0, 1, 5, 0⟩
    tbl2 := fun i => if i < 2 then liveE else ⟨0, 1, 6, 0⟩
    fetchOk1 := fun _ => true
    fetchOk2 := fun _ => true
    alldiffs := [⟨1, false, true⟩, ⟨2, true, true⟩] }

/-- Concrete scenario for the non-entry-block case: block offset 3 is the
allocator block of the second group in a layout with two entry blocks per
group. -/
def E10 : Env :=
  { epb := 2, ebpg := 2
    tbl1 := fun _ => dead
    tbl2 := fun _ => dead
    fetchOk1 := fun _ => true
    fetchOk2 := fun _ => true
    alldiffs := [⟨3, true, true⟩] }

/-- Concrete lifecycle state: table of 8 slots, inode 1 allocated with a
recognisable content, all fetches succeed. -/
def stBase : IfileState :=
  { nmax := 8, epb := 2
    allocated := fun i => i == 1
    entries := fun i => if i = 1 then ⟨7, 3, 9, 9⟩ else dead
    blockDirty := fun _ => false
    mdtDirty := false
    fetchOk := fun _ => true }

/-- The same lifecycle state with every block fetch failing. -/
def stNoFetch : IfileState :=
  { stBase with fetchOk := fun _ => false }

/-- C1: in `E1` the compare call fails with -Eio after one change record was
already produced, and the buffer-head reference held by that record is still
retained when the call returns: the release loop at the `failed` label runs
zero times because `nc` was overwritten with the negative error code, so the
claim's guarantee (no retained references on failure) is violated by the
code. -/
theorem C1_compare_failure_retains_handles :
    (compareRun E1 0 10).ret = .error .Eio ∧
    (compareRun E1 0 10).buf = [⟨0, none, some (true, 0)⟩] ∧
    (compareRun E1 0 10).retained = [(true, 0)] := by decide

/-- C2 counterexample: deleting allocated inode 1 (link count 3) succeeds,
yet the link count — the field whose nonzero value the diff engine reads as
live — is still 3 afterwards, and the entry still counts as live; only
`i_flags` is zeroed.  This refutes the claim that `nilfs_ifile_delete_inode`
zeroes the liveness-determining (link-count) field. -/
theorem C2_delete_leaves_link_count :
    (deleteInode stBase 1).2.2 = .ok () ∧
    ((deleteInode stBase 1).1.entries 1).links = 3 ∧
    isLive ((deleteInode stBase 1).1.entries 1) = true ∧
    ((deleteInode stBase 1).1.entries 1).flags = 0 := by decide

/-- C2 amended: for every successfully deleted entry,
`nilfs_ifile_delete_inode` zeroes the entry's `i_flags` field in the entry's
block before committing the free of the slot; the link-count field that the
diff engine reads as liveness (and the timestamps) are left unchanged. -/
theorem C2_delete_zeroes_flags (st : IfileState) (ino : Nat)
    (ha : st.allocated ino = true) (hf : st.fetchOk (ino / st.epb) = true) :
    (deleteInode st ino).2.2 = .ok () ∧
    ((deleteInode st ino).1.entries ino).flags = 0 ∧
    ((deleteInode st ino).1.entries ino).links = (st.entries ino).links ∧
    ((deleteInode st ino).1.entries ino).ctime = (st.entries ino).ctime ∧
    ((deleteInode st ino).1.entries ino).ctimeNsec = (st.entries ino).ctimeNsec ∧
    (deleteInode st ino).1.allocated ino = false ∧
    (deleteInode st ino).2.1 =
      [DelEv.zeroFlags ino, DelEv.markDirty (ino / st.epb),
       DelEv.brelseEv (ino / st.epb), DelEv.commitFree ino] := by
  simp [deleteInode, ha, hf]

/-- C2 amended, witness at the concrete state `stBase`, inode 1. -/
theorem C2_delete_zeroes_flags_inst :
    (deleteInode stBase 1).2.2 = .ok () ∧
    ((deleteInode stBase 1).1.entries 1).flags = 0 ∧
    ((deleteInode stBase 1).1.entries 1).links = (stBase.entries 1).links ∧
    ((deleteInode stBase 1).1.entries 1).ctime = (stBase.entries 1).ctime ∧
    ((deleteInode stBase 1).1.entries 1).ctimeNsec = (stBase.entries 1).ctimeNsec ∧
    (deleteInode stBase 1).1.allocated 1 = false ∧
    (deleteInode stBase 1).2.1 =
      [DelEv.zeroFlags 1, DelEv.markDirty (1 / stBase.epb),
       DelEv.brelseEv (1 / stBase.epb), DelEv.commitFree 1] :=
  C2_delete_zeroes_flags stBase 1 (by decide) (by decide)

/-- C3: with `maxchanges = 0` the compare call is not the promised immediate
empty success: in `E3` it fetches table 2's copy of the differing block
(witnessed by the retained handle), writes one change record into the
caller's zero-capacity buffer, and returns 1 — the `n == maxchanges` check
sits after `n++` and so never fires when `maxchanges` is 0. -/
theorem C3_zero_capacity_overruns :
    (compareRun E3 0 0).ret = .ok 1 ∧
    (compareRun E3 0 0).buf = [⟨0, none, some (true, 0)⟩] ∧
    (compareRun E3 0 0).retained = [(true, 0)] := by decide

/-- C4: in `E4` the compare call emits the change record for inode 0 with
both buffer-head handles absent, because the inode is dead on both sides
while its ctime differs — contradicting the claim (and the ifile.h
documentation of struct nilfs_ifile_change shapes) that a record with both
handles NULL never appears. -/
theorem C4_both_absent_record_emitted :
    (compareRun E4 0 10).ret = .ok 1 ∧
    (compareRun E4 0 10).buf = [⟨0, none, none⟩] ∧
    isLive (E4.tbl1 0) = false ∧ isLive (E4.tbl2 0) = false := by decide

/-- C7: when the allocator's prepare reserves slot `s`, a failing block
fetch makes `nilfs_ifile_create_inode` abort the reservation and return the
failure with the state unchanged (nothing committed, nothing dirty); a
successful fetch commits the reservation, marks the entry's block and the
ifile metadata dirty, and returns the inode number with the retained block
handle. -/
theorem C7_create_commit_or_abort (st : IfileState) (s : Nat)
    (h : firstFree st = some s) :
    (st.fetchOk (s / st.epb) = false → createInode st = (st, .error .Eio)) ∧
    (st.fetchOk (s / st.epb) = true →
      (createInode st).2 = .ok (s, s / st.epb) ∧
      (createInode st).1.allocated s = true ∧
      (createInode st).1.blockDirty (s / st.epb) = true ∧
      (createInode st).1.mdtDirty = true ∧
      (createInode st).1.entries = st.entries) := by
  refine ⟨fun hf => ?_, fun hf => ?_⟩ <;> simp [createInode, h, hf]

/-- C7, witness: both branches at the concrete states `stNoFetch` and
`stBase`, where the prepared slot is 0. -/
theorem C7_create_commit_or_abort_inst :
    createInode stNoFetch = (stNoFetch, .error .Eio) ∧
    (createInode stBase).2 = .ok (0, 0 / stBase.epb) ∧
    (createInode stBase).1.mdtDirty = true :=
  ⟨(C7_create_commit_or_abort stNoFetch 0 (by decide)).1 (by decide),
   ((C7_create_commit_or_abort stBase 0 (by decide)).2 (by decide)).1,
   ((C7_create_commit_or_abort stBase 0 (by decide)).2 (by decide)).2.2.2.1⟩

/-- C8: deleting an entry whose allocated bit is clear fails with -ENOENT
(`NotAllocated`) and performs no mutation at all: the state is returned
unchanged and no event (field write, dirtying, commit) happens. -/
theorem C8_delete_unallocated_no_mutation (st : IfileState) (ino : Nat)
    (h : st.allocated ino = false) :
    deleteInode st ino = (st, [], .error .ENOENT) := by
  simp [deleteInode, h]

/-- C8, witness: inode 2 is not allocated in `stBase`. -/
theorem C8_delete_unallocated_no_mutation_inst :
    deleteInode stBase 2 = (stBase, [], .error .ENOENT) :=
  C8_delete_unallocated_no_mutation stBase 2 (by decide)

/-- C9: an inode number outside the addressable range is rejected with
-EINVAL before any block fetch (the fetch log is empty); for an in-range
number exactly one fetch of the containing block is performed with
create = 0, and its success or failure is the call's result. -/
theorem C9_lookup_range_check (st : IfileState) (ino : Nat) :
    (st.nmax ≤ ino → getInodeBlock st ino = (.error .EINVAL, [])) ∧
    (ino < st.nmax →
      (getInodeBlock st ino).2 = [(ino / st.epb, false)] ∧
      (st.fetchOk (ino / st.epb) = true →
        (getInodeBlock st ino).1 = .ok (ino / st.epb)) ∧
      (st.fetchOk (ino / st.epb) = false →
        (getInodeBlock st ino).1 = .error .Eio)) := by
  refine ⟨fun h => ?_, fun h => ?_⟩
  · simp [getInodeBlock, h]
  · have h' : ¬ st.nmax ≤ ino := by omega
    refine ⟨?_, fun hf => ?_, fun hf => ?_⟩
    · simp only [getInodeBlock, if_neg h']
      split <;> rfl
    · simp [getInodeBlock, h', hf]
    · simp [getInodeBlock, h', hf]

/-- C9, witness: inode 9 is out of range in `stBase` (capacity 8), inode 3
is in range and its block fetch is logged once with create = 0. -/
theorem C9_lookup_range_check_inst :
    getInodeBlock stBase 9 = (.error .EINVAL, []) ∧
    (getInodeBlock stBase 3).2 = [(3 / stBase.epb, false)] :=
  ⟨(C9_lookup_range_check stBase 9).1 (by decide),
   ((C9_lookup_range_check stBase 3).2 (by decide)).1⟩

/-- C10: when the block-map differ reports a differing block that the
allocator layout classifies as a non-entry (allocator) block,
`nilfs_ifile_compare_block` returns zero records whatever the fetch oracles
are (so neither table's copy is fetched), and the main compare loop proceeds
with the remaining differing blocks unchanged. -/
theorem C10_non_entry_block_skipped (env : Env) (f1 f2 : Nat → Bool)
    (start cap m nc : Nat) (d : DiffRec) (rest : List DiffRec)
    (acc : List Change) (hb : blockNr env.ebpg env.epb d.key = none)
    (hnc : nc ≠ cap) :
    compareBlock { env with fetchOk1 := f1, fetchOk2 := f2 } start d m = .ok [] ∧
    compareGo env start cap (d :: rest) nc acc = compareGo env start cap rest nc acc := by
  have h1 : compareBlock env start d (cap - nc) = .ok [] := by
    simp [compareBlock, hb]
  refine ⟨by simp [compareBlock, hb], ?_⟩
  simp [compareGo, h1, hnc]

/-- C10, witness: in `E10` block offset 3 is the allocator block of group 1;
even with always-failing fetch oracles the block contributes nothing and the
scan continues past it. -/
theorem C10_non_entry_block_skipped_inst :
    compareBlock { E10 with fetchOk1 := fun _ => false, fetchOk2 := fun _ => false }
      0 ⟨3, true, true⟩ 5 = .ok [] ∧
    compareGo E10 0 5 [⟨3, true, true⟩] 0 [] = compareGo E10 0 5 [] 0 [] :=
  C10_non_entry_block_skipped E10 (fun _ => false) (fun _ => false)
    0 5 5 0 ⟨3, true, true⟩ [] [] (by decide) (by decide)

/-- Unfolding equation: the emission loop on an empty inode range. -/
theorem emitLoop_nil (f : Nat → Option Change) (n m : Nat) :
    emitLoop f [] n m = [] := rfl

/-- Unfolding equation: an iteration whose body emits nothing. -/
theorem emitLoop_cons_none {f : Nat → Option Change} {i : Nat} (rest : List Nat)
    (n m : Nat) (hfi : f i = none) :
    emitLoop f (i :: rest) n m = emitLoop f rest n m := by
  simp [emitLoop, hfi]

/-- Unfolding equation: an emitting iteration that hits the capacity check. -/
theorem emitLoop_cons_stop {f : Nat → Option Change} {i : Nat} {c : Change}
    (rest : List Nat) {n m : Nat} (hfi : f i = some c) (hb : n + 1 = m) :
    emitLoop f (i :: rest) n m = [c] := by
  simp [emitLoop, hfi, hb]

/-- Unfolding equation: an emitting iteration below capacity. -/
theorem emitLoop_cons_go {f : Nat → Option Change} {i : Nat} {c : Change}
    (rest : List Nat) {n m : Nat} (hfi : f i = some c) (hb : ¬ n + 1 = m) :
    emitLoop f (i :: rest) n m = c :: emitLoop f rest (n + 1) m := by
  simp [emitLoop, hfi, hb]

/-- Membership bounds for the scanned inode window. -/
theorem mem_inoRange {i lo hi : Nat} (h : i ∈ inoRange lo hi) : lo ≤ i ∧ i ≤ hi := by
  simp only [inoRange, List.mem_range'_1] at h
  omega

/-- The scanned inode window is strictly increasing. -/
theorem inoRange_pairwise (lo hi : Nat) : (inoRange lo hi).Pairwise (· < ·) := by
  simpa [inoRange] using List.pairwise_lt_range' lo (hi + 1 - lo)

/-- A record emitted by a one-sided loop body carries the scanned inode number. -/
theorem onlyF_ino {env : Env} {side : Bool} {nr i : Nat} {c : Change}
    (h : onlyF env side nr i = some c) : c.ino = i := by
  simp only [onlyF] at h
  split at h <;> split at h <;>
    first
      | (have h' := Option.some.inj h; subst h'; rfl)
      | cases h

/-- A record emitted by the both-sided loop body carries the scanned inode number. -/
theorem bothF_ino {env : Env} {nr i : Nat} {c : Change}
    (h : bothF env nr i = some c) : c.ino = i := by
  simp only [bothF] at h
  split at h
  · have h' := Option.some.inj h
    subst h'
    rfl
  · cases h

/-- Every record of an emission loop comes from some scanned inode. -/
theorem mem_emitLoop {f : Nat → Option Change} {inos : List Nat} {n m : Nat} {c : Change}
    (h : c ∈ emitLoop f inos n m) : ∃ i ∈ inos, f i = some c := by
  induction inos generalizing n with
  | nil => simp [emitLoop_nil] at h
  | cons i rest ih =>
    cases hfi : f i with
    | none =>
      rw [emitLoop_cons_none rest n m hfi] at h
      obtain ⟨j, hj, hfj⟩ := ih h
      exact ⟨j, List.mem_cons_of_mem _ hj, hfj⟩
    | some c' =>
      by_cases hb : n + 1 = m
      · rw [emitLoop_cons_stop rest hfi hb, List.mem_singleton] at h
        exact ⟨i, List.mem_cons_self _ _, by rw [h]; exact hfi⟩
      · rw [emitLoop_cons_go rest hfi hb, List.mem_cons] at h
        rcases h with h | h
        · exact ⟨i, List.mem_cons_self _ _, by rw [h]; exact hfi⟩
        · obtain ⟨j, hj, hfj⟩ := ih h
          exact ⟨j, List.mem_cons_of_mem _ hj, hfj⟩

/-- An emission loop over a strictly increasing window emits records with
strictly increasing inode numbers. -/
theorem emitLoop_pairwise {f : Nat → Option Change} {inos : List Nat} {n m : Nat}
    (hf : ∀ i c, f i = some c → c.ino = i) (h : inos.Pairwise (· < ·)) :
    (emitLoop f inos n m).Pairwise (fun a b => a.ino < b.ino) := by
  induction inos generalizing n with
  | nil => simp [emitLoop_nil]
  | cons i rest ih =>
    obtain ⟨hhead, htail⟩ := List.pairwise_cons.mp h
    cases hfi : f i with
    | none =>
      rw [emitLoop_cons_none rest n m hfi]
      exact ih htail
    | some c =>
      by_cases hb : n + 1 = m
      · rw [emitLoop_cons_stop rest hfi hb]
        exact List.pairwise_singleton _ _
      · rw [emitLoop_cons_go rest hfi hb]
        refine List.Pairwise.cons ?_ (ih htail)
        intro c' hc'
        obtain ⟨j, hj, hfj⟩ := mem_emitLoop hc'
        rw [hf i c hfi, hf j c' hfj]
        exact hhead j hj

end Nilfs

namespace Nilfs


/-- Unfolding equation: a differing block that is not an entry block
contributes nothing. -/
theorem compareBlock_none {env : Env} {start : Nat} {d : DiffRec} {m : Nat}
    (hb : blockNr env.ebpg env.epb d.key = none) :
    compareBlock env start d m = .ok [] := by
  unfold compareBlock
  rw [hb]

/-- Unfolding equation of `compareBlock` on an entry block. -/
theorem compareBlock_some {env : Env} {start : Nat} {d : DiffRec} {m nr : Nat}
    (hb : blockNr env.ebpg env.epb d.key = some nr) :
    compareBlock env start d m =
      (if nr + env.epb - 1 < max nr start then .ok []
       else if d.ptr1 && !env.fetchOk1 nr then .error .Eio
       else if d.ptr2 && !env.fetchOk2 nr then .error .Eio
       else if !d.ptr1 && !d.ptr2 then .ok []
       else if !d.ptr1 then
         .ok (emitLoop (onlyF env true nr) (inoRange (max nr start) (nr + env.epb - 1)) 0 m)
       else if !d.ptr2 then
         .ok (emitLoop (onlyF env false nr) (inoRange (max nr start) (nr + env.epb - 1)) 0 m)
       else
         .ok (emitLoop (bothF env nr) (inoRange (max nr start) (nr + env.epb - 1)) 0 m)) := by
  unfold compareBlock
  rw [hb]

/-- Every record a successful compare-block call emits lies in the block's
clipped inode window. -/
theorem compareBlock_ok_mem {env : Env} {start : Nat} {d : DiffRec} {m : Nat}
    {cs : List Change} {c : Change}
    (h : compareBlock env start d m = .ok cs) (hc : c ∈ cs) :
    ∃ nr, blockNr env.ebpg env.epb d.key = some nr ∧
      max nr start ≤ c.ino ∧ c.ino ≤ nr + env.epb - 1 := by
  cases hb : blockNr env.ebpg env.epb d.key with
  | none =>
    rw [compareBlock_none hb] at h
    cases Except.ok.inj h
    cases hc
  | some nr =>
    rw [compareBlock_some hb] at h
    refine ⟨nr, rfl, ?_⟩
    split at h
    · cases Except.ok.inj h
      cases hc
    · split at h
      · cases h
      · split at h
        · cases h
        · split at h
          · cases Except.ok.inj h
            cases hc
          · split at h
            · cases Except.ok.inj h
              obtain ⟨i, hi, hfi⟩ := mem_emitLoop hc
              obtain ⟨h1, h2⟩ := mem_inoRange hi
              rw [onlyF_ino hfi]
              exact ⟨h1, h2⟩
            · split at h
              · cases Except.ok.inj h
                obtain ⟨i, hi, hfi⟩ := mem_emitLoop hc
                obtain ⟨h1, h2⟩ := mem_inoRange hi
                rw [onlyF_ino hfi]
                exact ⟨h1, h2⟩
              · cases Except.ok.inj h
                obtain ⟨i, hi, hfi⟩ := mem_emitLoop hc
                obtain ⟨h1, h2⟩ := mem_inoRange hi
                rw [bothF_ino hfi]
                exact ⟨h1, h2⟩

/-- A successful compare-block call emits records in strictly ascending
inode order. -/
theorem compareBlock_ok_pairwise {env : Env} {start : Nat} {d : DiffRec} {m : Nat}
    {cs : List Change} (h : compareBlock env start d m = .ok cs) :
    cs.Pairwise (fun a b => a.ino < b.ino) := by
  cases hb : blockNr env.ebpg env.epb d.key with
  | none =>
    rw [compareBlock_none hb] at h
    cases Except.ok.inj h
    exact List.Pairwise.nil
  | some nr =>
    rw [compareBlock_some hb] at h
    split at h
    · cases Except.ok.inj h
      exact List.Pairwise.nil
    · split at h
      · cases h
      · split at h
        · cases h
        · split at h
          · cases Except.ok.inj h
            exact List.Pairwise.nil
          · split at h
            · cases Except.ok.inj h
              exact emitLoop_pairwise (fun i c => onlyF_ino) (inoRange_pairwise _ _)
            · split at h
              · cases Except.ok.inj h
                exact emitLoop_pairwise (fun i c => onlyF_ino) (inoRange_pairwise _ _)
              · cases Except.ok.inj h
                exact emitLoop_pairwise (fun i c => bothF_ino) (inoRange_pairwise _ _)

/-- In the allocator layout, entry blocks at increasing offsets hold disjoint,
increasing inode windows: a later block starts at least one full block of
inodes higher. -/
theorem blockNr_mono {ebpg epb k1 k2 nr1 nr2 : Nat} (hebpg : 0 < ebpg)
    (h1 : blockNr ebpg epb k1 = some nr1) (h2 : blockNr ebpg epb k2 = some nr2)
    (hk : k1 < k2) : nr1 + epb ≤ nr2 := by
  simp only [blockNr] at h1 h2
  split at h1
  · cases h1
  · split at h2
    · cases h2
    · rename_i hr1 hr2
      have e1 : nr1 = (k1 / (ebpg + 1) * ebpg + (k1 % (ebpg + 1) - 1)) * epb :=
        (Option.some.inj h1).symm
      have e2 : nr2 = (k2 / (ebpg + 1) * ebpg + (k2 % (ebpg + 1) - 1)) * epb :=
        (Option.some.inj h2).symm
      have hidx : k1 / (ebpg + 1) * ebpg + (k1 % (ebpg + 1) - 1) + 1 ≤
          k2 / (ebpg + 1) * ebpg + (k2 % (ebpg + 1) - 1) := by
        have d1 := Nat.div_add_mod k1 (ebpg + 1)
        have d2 := Nat.div_add_mod k2 (ebpg + 1)
        have m1 : k1 % (ebpg + 1) < ebpg + 1 := Nat.mod_lt _ (Nat.succ_pos _)
        have m2 : k2 % (ebpg + 1) < ebpg + 1 := Nat.mod_lt _ (Nat.succ_pos _)
        rcases Nat.lt_trichotomy (k1 / (ebpg + 1)) (k2 / (ebpg + 1)) with hg | hg | hg
        · have hmul : k1 / (ebpg + 1) * ebpg + 1 * ebpg ≤ k2 / (ebpg + 1) * ebpg := by
            rw [← Nat.add_mul]
            exact Nat.mul_le_mul_right _ (by omega)
          rw [Nat.one_mul] at hmul
          omega
        · rw [hg] at d1 ⊢
          omega
        · exfalso
          have hmul : (ebpg + 1) * (k2 / (ebpg + 1)) + (ebpg + 1) * 1 ≤
              (ebpg + 1) * (k1 / (ebpg + 1)) := by
            rw [← Nat.mul_add]
            exact Nat.mul_le_mul_left _ (by omega)
          omega
      calc nr1 + epb = (k1 / (ebpg + 1) * ebpg + (k1 % (ebpg + 1) - 1) + 1) * epb := by
            rw [e1, Nat.succ_mul]
        _ ≤ (k2 / (ebpg + 1) * ebpg + (k2 % (ebpg + 1) - 1)) * epb :=
            Nat.mul_le_mul_right _ hidx
        _ = nr2 := e2.symm

/-- Unfolding equation: the main compare loop with no differ records left. -/
theorem compareGo_nil (env : Env) (start cap nc : Nat) (acc : List Change) :
    compareGo env start cap [] nc acc = ⟨.ok nc, acc, recHandles acc⟩ := rfl

/-- Unfolding equation: the main compare loop when the block comparison
fails; the release loop frees `(errno e).toNat = 0` records. -/
theorem compareGo_cons_error {env : Env} {start cap nc : Nat} {acc : List Change}
    {d : DiffRec} {rest : List DiffRec} {e : Err}
    (h : compareBlock env start d (cap - nc) = .error e) :
    compareGo env start cap (d :: rest) nc acc =
      ⟨.error e, acc, recHandles (acc.drop (errno e).toNat)⟩ := by
  simp [compareGo, h]

/-- Unfolding equation: the main compare loop on a successful block
comparison, with the `nc == maxchanges` early exit. -/
theorem compareGo_cons_ok {env : Env} {start cap nc : Nat} {acc : List Change}
    {d : DiffRec} {rest : List DiffRec} {cs : List Change}
    (h : compareBlock env start d (cap - nc) = .ok cs) :
    compareGo env start cap (d :: rest) nc acc =
      (if nc + cs.length = cap then
        ⟨.ok (nc + cs.length), acc ++ cs, recHandles (acc ++ cs)⟩
      else compareGo env start cap rest (nc + cs.length) (acc ++ cs)) := by
  simp [compareGo, h]

/-- Invariant of the main compare loop: if the pending differ records have
strictly ascending offsets and the accumulated records are sorted, lie at or
above `start`, and all precede every pending block's inode window, then the
final buffer is sorted and stays at or above `start` — on the error path as
well as on success. -/
theorem compareGo_sorted (env : Env) (start cap : Nat) (hepb : 0 < env.epb)
    (hebpg : 0 < env.ebpg) :
    ∀ (ds : List DiffRec) (nc : Nat) (acc : List Change),
      ds.Pairwise (fun a b => a.key < b.key) →
      acc.Pairwise (fun a b => a.ino < b.ino) →
      (∀ c ∈ acc, start ≤ c.ino) →
      (∀ c ∈ acc, ∀ d ∈ ds, ∀ nr,
        blockNr env.ebpg env.epb d.key = some nr → c.ino < nr) →
      (compareGo env start cap ds nc acc).buf.Pairwise (fun a b => a.ino < b.ino) ∧
      ∀ c ∈ (compareGo env start cap ds nc acc).buf, start ≤ c.ino := by
  intro ds
  induction ds with
  | nil =>
    intro nc acc _ hs hst _
    rw [compareGo_nil]
    exact ⟨hs, hst⟩
  | cons d rest ih =>
    intro nc acc hd hs hst hub
    obtain ⟨hdhead, hdtail⟩ := List.pairwise_cons.mp hd
    cases hcb : compareBlock env start d (cap - nc) with
    | error e =>
      rw [compareGo_cons_error hcb]
      exact ⟨hs, hst⟩
    | ok cs =>
      have hcs_mem : ∀ c ∈ cs, ∃ nr, blockNr env.ebpg env.epb d.key = some nr ∧
          max nr start ≤ c.ino ∧ c.ino ≤ nr + env.epb - 1 :=
        fun c hc => compareBlock_ok_mem hcb hc
      have hs' : (acc ++ cs).Pairwise (fun a b => a.ino < b.ino) := by
        rw [List.pairwise_append]
        refine ⟨hs, compareBlock_ok_pairwise hcb, ?_⟩
        intro a ha b hb
        obtain ⟨nr, hnr, hlo, hhi⟩ := hcs_mem b hb
        have h1 := hub a ha d (List.mem_cons_self _ _) nr hnr
        have h2 := Nat.le_max_left nr start
        omega
      have hst' : ∀ c ∈ acc ++ cs, start ≤ c.ino := by
        intro c hc
        rcases List.mem_append.mp hc with hc | hc
        · exact hst c hc
        · obtain ⟨nr, hnr, hlo, hhi⟩ := hcs_mem c hc
          exact le_trans (Nat.le_max_right nr start) hlo
      have hub' : ∀ c ∈ acc ++ cs, ∀ d' ∈ rest, ∀ nr',
          blockNr env.ebpg env.epb d'.key = some nr' → c.ino < nr' := by
        intro c hc d' hd' nr' hnr'
        rcases List.mem_append.mp hc with hc | hc
        · exact hub c hc d' (List.mem_cons_of_mem _ hd') nr' hnr'
        · obtain ⟨nr, hnr, hlo, hhi⟩ := hcs_mem c hc
          have hmono := blockNr_mono hebpg hnr hnr' (hdhead d' hd')
          omega
      rw [compareGo_cons_ok hcb]
      split
      · exact ⟨hs', hst'⟩
      · exact ih (nc + cs.length) (acc ++ cs) hdtail hs' hst' hub'

/-- With remaining capacity `m - n > 0`, the capped emission loop produces
exactly the first `m - n` records of the uncapped one. -/
theorem emitLoop_eq_take {f : Nat → Option Change} {inos : List Nat} {n m : Nat}
    (h : n < m) : emitLoop f inos n m = (emitAll f inos).take (m - n) := by
  induction inos generalizing n with
  | nil => simp [emitLoop_nil, emitAll]
  | cons i rest ih =>
    cases hfi : f i with
    | none =>
      rw [emitLoop_cons_none rest n m hfi, ih h]
      simp [emitAll, List.filterMap_cons, hfi]
    | some c =>
      by_cases hb : n + 1 = m
      · rw [emitLoop_cons_stop rest hfi hb]
        have hm1 : m - n = 1 := by omega
        simp [emitAll, List.filterMap_cons, hfi, hm1]
      · have h' : n + 1 < m := by omega
        rw [emitLoop_cons_go rest hfi hb, ih h']
        have hm1 : m - n = (m - (n + 1)) + 1 := by omega
        rw [hm1]
        simp [emitAll, List.filterMap_cons, hfi]

/-- When every fetch succeeds and capacity is positive, a compare-block call
returns the first `m` records of the block's unbounded record list. -/
theorem compareBlock_eq_take {env : Env} {start : Nat} {d : DiffRec} {m : Nat}
    (hf1 : env.fetchOk1 = fun _ => true) (hf2 : env.fetchOk2 = fun _ => true)
    (hm : 0 < m) :
    compareBlock env start d m = .ok ((fullBlock env start d).take m) := by
  cases hb : blockNr env.ebpg env.epb d.key with
  | none =>
    rw [compareBlock_none hb]
    simp only [fullBlock, hb, List.take_nil]
  | some nr =>
    rw [compareBlock_some hb]
    simp only [fullBlock, hb, hf1, hf2, Bool.not_true, Bool.and_false]
    repeat' split
    all_goals first
      | rfl
      | exact Bool.noConfusion (by assumption : false = true)
      | rw [emitLoop_eq_take hm, Nat.sub_zero]
      | simp

/-- When every fetch succeeds, the main compare loop started below capacity
returns `min cap (nc + total)` and appends exactly the first `cap - nc`
unbounded records to the accumulator. -/
theorem compareGo_eq_take (env : Env) (start cap : Nat)
    (hf1 : env.fetchOk1 = fun _ => true) (hf2 : env.fetchOk2 = fun _ => true) :
    ∀ (ds : List DiffRec) (nc : Nat) (acc : List Change), nc < cap →
      compareGo env start cap ds nc acc =
        ⟨.ok (min cap (nc + (ds.flatMap (fullBlock env start)).length)),
         acc ++ (ds.flatMap (fullBlock env start)).take (cap - nc),
         recHandles (acc ++ (ds.flatMap (fullBlock env start)).take (cap - nc))⟩ := by
  intro ds
  induction ds with
  | nil =>
    intro nc acc hnc
    rw [compareGo_nil]
    have h1 : min cap (nc + (([] : List DiffRec).flatMap (fullBlock env start)).length) = nc := by
      simp
      omega
    simp [h1]
    omega
  | cons d rest ih =>
    intro nc acc hnc
    have hm : 0 < cap - nc := by omega
    rw [compareGo_cons_ok (compareBlock_eq_take hf1 hf2 hm)]
    have hlt : ((fullBlock env start d).take (cap - nc)).length =
        min (cap - nc) (fullBlock env start d).length := by simp
    by_cases hstop : nc + ((fullBlock env start d).take (cap - nc)).length = cap
    · rw [if_pos hstop]
      have htle : cap - nc ≤ (fullBlock env start d).length := by omega
      have hbuf : acc ++ (fullBlock env start d).take (cap - nc) =
          acc ++ ((d :: rest).flatMap (fullBlock env start)).take (cap - nc) := by
        rw [List.flatMap_cons, List.take_append_eq_append_take,
            show cap - nc - (fullBlock env start d).length = 0 by omega,
            List.take_zero, List.append_nil]
      have hret : (Except.ok (nc + ((fullBlock env start d).take (cap - nc)).length) :
            Except Err Nat) =
          Except.ok (min cap (nc + ((d :: rest).flatMap (fullBlock env start)).length)) := by
        rw [hstop]
        congr 1
        rw [List.flatMap_cons, List.length_append]
        omega
      rw [hret, hbuf]
    · rw [if_neg hstop]
      have hLlt : (fullBlock env start d).length < cap - nc := by omega
      have hcs : (fullBlock env start d).take (cap - nc) = fullBlock env start d :=
        List.take_of_length_le (by omega)
      rw [hcs]
      have hnc' : nc + (fullBlock env start d).length < cap := by omega
      rw [ih (nc + (fullBlock env start d).length) (acc ++ fullBlock env start d) hnc']
      have hbuf : (acc ++ fullBlock env start d) ++
          (rest.flatMap (fullBlock env start)).take
            (cap - (nc + (fullBlock env start d).length)) =
          acc ++ ((d :: rest).flatMap (fullBlock env start)).take (cap - nc) := by
        rw [List.append_assoc, List.flatMap_cons, List.take_append_eq_append_take,
            List.take_of_length_le (show (fullBlock env start d).length ≤ cap - nc by omega)]
        congr 3
        omega
      have hret : (Except.ok (min cap
            (nc + (fullBlock env start d).length +
              (rest.flatMap (fullBlock env start)).length)) : Except Err Nat) =
          Except.ok (min cap (nc + ((d :: rest).flatMap (fullBlock env start)).length)) := by
        congr 1
        rw [List.flatMap_cons, List.length_append]
        omega
      rw [hret, hbuf]

/-- C6: the sequence returned by compare is ordered by strictly ascending
entry number and contains only entry numbers at or above `start`; entries
before `start` sharing the first differing block are skipped because every
block's window is clipped to `max(block_start, start)`.  Holds for any
capacity and also on error exits, given the differ reports offsets in
strictly ascending order. -/
theorem C6_output_ascending_and_from_start (env : Env) (start cap : Nat)
    (hepb : 0 < env.epb) (hebpg : 0 < env.ebpg)
    (hd : env.alldiffs.Pairwise (fun a b => a.key < b.key)) :
    (compareRun env start cap).buf.Pairwise (fun a b => a.ino < b.ino) ∧
    ∀ c ∈ (compareRun env start cap).buf, start ≤ c.ino := by
  unfold compareRun
  exact compareGo_sorted env start cap hepb hebpg _ 0 []
    (hd.filter _) List.Pairwise.nil (by simp) (by simp)

/-- C6, witness at the concrete environment `E5`. -/
theorem C6_output_ascending_and_from_start_inst :
    (compareRun E5 0 2).buf.Pairwise (fun a b => a.ino < b.ino) ∧
    ∀ c ∈ (compareRun E5 0 2).buf, 0 ≤ c.ino :=
  C6_output_ascending_and_from_start E5 0 2 (by decide) (by decide) (by decide)

/-- C5 counterexample: with `cap = 0`, which is smaller than the one differing
entry of `E3`, compare does not return exactly `cap = 0` records — the
capacity check never fires and a record is emitted anyway. -/
theorem C5_cap_zero_emits_anyway :
    0 < (fullChanges E3 0).length ∧ (compareRun E3 0 0).buf.length ≠ 0 := by decide

/-- C5 amended: when `0 < cap`, every fetch succeeds, and `cap` is smaller
than the number of differing entries at or above `start`, compare returns
exactly `cap` records, they are the first `cap` records of the unbounded
result (a strict prefix of it), and they are in ascending entry-number
order.  The unbounded result is what compare itself returns when given
capacity `length + 1`. -/
theorem C5_capacity_truncates (env : Env) (start cap : Nat)
    (hf1 : env.fetchOk1 = fun _ => true) (hf2 : env.fetchOk2 = fun _ => true)
    (hepb : 0 < env.epb) (hebpg : 0 < env.ebpg)
    (hd : env.alldiffs.Pairwise (fun a b => a.key < b.key))
    (hcap : 0 < cap) (hlt : cap < (fullChanges env start).length) :
    (compareRun env start cap).ret = .ok cap ∧
    (compareRun env start cap).buf = (fullChanges env start).take cap ∧
    (compareRun env start cap).buf.length = cap ∧
    (compareRun env start ((fullChanges env start).length + 1)).buf = fullChanges env start ∧
    (∃ t, fullChanges env start = (compareRun env start cap).buf ++ t ∧ t ≠ []) ∧
    (compareRun env start cap).buf.Pairwise (fun a b => a.ino < b.ino) := by
  have hrun : compareRun env start cap =
      ⟨.ok (min cap (0 + (fullChanges env start).length)),
       [] ++ (fullChanges env start).take (cap - 0),
       recHandles ([] ++ (fullChanges env start).take (cap - 0))⟩ := by
    unfold compareRun fullChanges
    exact compareGo_eq_take env start cap hf1 hf2 _ 0 [] hcap
  have hmin : min cap (0 + (fullChanges env start).length) = cap := by omega
  have hbuf : (compareRun env start cap).buf = (fullChanges env start).take cap := by
    rw [hrun]
    simp
  refine ⟨?_, hbuf, ?_, ?_, ?_, ?_⟩
  · rw [hrun]
    simp only [hmin]
  · rw [hbuf, List.length_take]
    omega
  · have hrun2 : compareRun env start ((fullChanges env start).length + 1) =
        ⟨.ok (min ((fullChanges env start).length + 1)
            (0 + (fullChanges env start).length)),
         [] ++ (fullChanges env start).take ((fullChanges env start).length + 1 - 0),
         recHandles ([] ++ (fullChanges env start).take
            ((fullChanges env start).length + 1 - 0))⟩ := by
      unfold compareRun fullChanges
      exact compareGo_eq_take env start _ hf1 hf2 _ 0 [] (by omega)
    rw [hrun2]
    simp only [List.nil_append, Nat.sub_zero]
    exact List.take_of_length_le (by omega)
  · refine ⟨(fullChanges env start).drop cap, ?_, ?_⟩
    · rw [hbuf, List.take_append_drop]
    · apply List.length_pos.mp
      rw [List.length_drop]
      omega
  · have hsorted := compareGo_sorted env start cap hepb hebpg
      (env.alldiffs.filter fun d => entryBlkoff env.ebpg env.epb start ≤ d.key) 0 []
      (hd.filter _) List.Pairwise.nil (by simp) (by simp)
    exact hsorted.1

/-- C5 amended, witness at the concrete environment `E5` with capacity 2
against 4 differing entries. -/
theorem C5_capacity_truncates_inst :
    (compareRun E5 0 2).ret = .ok 2 ∧
    (compareRun E5 0 2).buf = (fullChanges E5 0).take 2 :=
  ⟨(C5_capacity_truncates E5 0 2 rfl rfl (by decide) (by decide) (by decide) (by decide)
      (by decide)).1,
   (C5_capacity_truncates E5 0 2 rfl rfl (by decide) (by decide) (by decide) (by decide)
      (by decide)).2.1⟩

end Nilfs
